import Mathlib

/-!
Shallow embedding of the Poker-Bot source (src/PokerBot.cpp): the card and
deck model, the 7-card hand evaluator `HandEvaluator::evaluateComplete`, the
comparison operators on `HandEvaluation`, the Monte-Carlo trial construction
(`PokerGame::initialize` / `completeBoard` / `isWinner`) and the decision
layer (`MCTSNode::getWinProbability`, `PokerBot::shouldStay`).
Machine ints are modelled as `Nat` (all quantities involved are small and
non-negative in the source paths under study); `std::vector` as `List`;
the fallible `Deck::deal` as `Option`.
-/

namespace PokerBot

/-- Card: suit 0..3 (CLUBS, DIAMONDS, HEARTS, SPADES), value 2..14 (TWO..ACE). -/
structure Card where
  suit : Nat
  value : Nat
deriving DecidableEq, Repr

/-- The domain of the C++ enums: suit in 0..3, value in 2..14. -/
def ValidCard (c : Card) : Prop := c.suit < 4 ∧ 2 ≤ c.value ∧ c.value ≤ 14

instance : DecidablePred ValidCard := fun _ =>
  inferInstanceAs (Decidable (_ ∧ _))

/-- Card::toInt: suit*13 + value - 2 (Nat subtraction agrees with the C++ int
arithmetic whenever value ≥ 2, which ValidCard guarantees). -/
def Card.toInt (c : Card) : Nat := c.suit * 13 + c.value - 2

/-- Card::fromInt: (cardIndex / 13, cardIndex % 13 + 2). -/
def Card.fromInt (n : Nat) : Card := ⟨n / 13, n % 13 + 2⟩

/-- The rank domain 2..14 scanned ascending (the C++ loops `for v = 2..14`). -/
def rankList : List Nat := [2, 3, 4, 5, 6, 7, 8, 9, 10, 11, 12, 13, 14]

/-- The rank domain scanned descending (the C++ loops `for i = 14 down to 2`). -/
def revRanks : List Nat := [14, 13, 12, 11, 10, 9, 8, 7, 6, 5, 4, 3, 2]

/-- Deck::reset: the canonical 52-card deck, suits outer loop 0..3,
values inner loop 2..14. -/
def freshDeck : List Card :=
  [0, 1, 2, 3].flatMap (fun s => rankList.map (fun v => ⟨s, v⟩))

/-- Deck::removeCard: erase the first card with matching toInt, if any. -/
def removeCard : List Card → Card → List Card
  | [], _ => []
  | x :: xs, c => if x.toInt = c.toInt then xs else x :: removeCard xs c

/-- Deck::deal: take the card at the back (a C++ pop_back); empty deck is the
`DeckExhausted` error, modelled as `none`. -/
def deal (d : List Card) : Option (Card × List Card) :=
  match d.getLast? with
  | none => none
  | some c => some (c, d.dropLast)

/-- HandRank enum, HIGH_CARD = 0 .. ROYAL_FLUSH = 9. -/
inductive HandRank where
  | HIGH_CARD
  | PAIR
  | TWO_PAIR
  | THREE_OF_A_KIND
  | STRAIGHT
  | FLUSH
  | FULL_HOUSE
  | FOUR_OF_A_KIND
  | STRAIGHT_FLUSH
  | ROYAL_FLUSH
deriving DecidableEq, Repr

/-- The numeric value of the HandRank enum constant. -/
def rankNat : HandRank → Nat
  | .HIGH_CARD => 0
  | .PAIR => 1
  | .TWO_PAIR => 2
  | .THREE_OF_A_KIND => 3
  | .STRAIGHT => 4
  | .FLUSH => 5
  | .FULL_HOUSE => 6
  | .FOUR_OF_A_KIND => 7
  | .STRAIGHT_FLUSH => 8
  | .ROYAL_FLUSH => 9

/-- HandEvaluation: category plus tiebreaker sequence (C++ vector of int;
all stored values are ranks 2..14). -/
structure HandEvaluation where
  rank : HandRank
  tiebreakers : List Nat
deriving DecidableEq, Repr

/-- The tiebreaker loop of HandEvaluation::operator>: walk both sequences up
to the shorter length; the first differing position decides; otherwise false. -/
def tbGt : List Nat → List Nat → Bool
  | x :: xs, y :: ys => if x = y then tbGt xs ys else decide (x > y)
  | _, _ => false

/-- HandEvaluation::operator>: compare enum values when ranks differ,
otherwise the tiebreaker loop. -/
def gtEval (a b : HandEvaluation) : Bool :=
  if a.rank = b.rank then tbGt a.tiebreakers b.tiebreakers
  else decide (rankNat a.rank > rankNat b.rank)

/-- HandEvaluation::operator==: equal rank, equal sizes, equal elements,
i.e. equal rank and equal tiebreaker lists. -/
def eqEval (a b : HandEvaluation) : Bool :=
  decide (a.rank = b.rank) && decide (a.tiebreakers = b.tiebreakers)

/-- valueCounts[v]: how many of the cards have value v. -/
def countValue (cs : List Card) (v : Nat) : Nat :=
  (cs.filter (fun c => decide (c.value = v))).length

/-- suitCounts[s]: how many of the cards have suit s. -/
def countSuit (cs : List Card) (s : Nat) : Nat :=
  (cs.filter (fun c => decide (c.suit = s))).length

/-- The flush scan: first suit in 0..3 with count ≥ 5 (the C++ loop breaks at
the first hit). -/
def flushSuit? (cs : List Card) : Option Nat :=
  [0, 1, 2, 3].find? (fun s => decide (5 ≤ countSuit cs s))

/-- Five consecutive ranks i..i+4 all present. -/
def windowB (c : Nat → Nat) (i : Nat) : Bool :=
  decide (0 < c i) && decide (0 < c (i + 1)) && decide (0 < c (i + 2)) &&
    decide (0 < c (i + 3)) && decide (0 < c (i + 4))

/-- The wheel A-2-3-4-5 present. -/
def wheelB (c : Nat → Nat) : Bool :=
  decide (0 < c 14) && decide (0 < c 2) && decide (0 < c 3) &&
    decide (0 < c 4) && decide (0 < c 5)

/-- The straight scan order: window starts 10 down to 2 (the C++ loop
`for i = 10; i >= 2; i--` with break at the first hit). -/
def windowStarts : List Nat := [10, 9, 8, 7, 6, 5, 4, 3, 2]

/-- The straight detection of evaluateComplete: the wheel check runs first
(high card 5), then the descending window scan overrides it with i+4 at the
first (hence highest) qualifying window. -/
def straightInfo (c : Nat → Nat) : Bool × Nat :=
  match windowStarts.find? (windowB c) with
  | some i => (true, i + 4)
  | none => if wheelB c then (true, 5) else (false, 0)

/-- Insert into a descending-sorted list, keeping it descending. -/
def insertDesc (x : Nat) : List Nat → List Nat
  | [] => [x]
  | y :: ys => if y ≤ x then x :: y :: ys else y :: insertDesc x ys

/-- Sort descending (the effect of std::sort with the value-descending
comparator, read off as the value sequence). -/
def sortDesc (l : List Nat) : List Nat := l.foldr insertDesc []

/-- The value sequence of flushCards after the descending sort. -/
def flushValuesDesc (cs : List Card) (s : Nat) : List Nat :=
  sortDesc ((cs.filter (fun c => decide (c.suit = s))).map Card.value)

/-- std::unique on a sorted run: drop adjacent duplicates. -/
def dedupAdj : List Nat → List Nat
  | [] => []
  | [x] => [x]
  | x :: y :: ys => if x = y then dedupAdj (y :: ys) else x :: dedupAdj (y :: ys)

/-- The regular straight-flush scan over the deduplicated descending flush
values: first i (0 ≤ i ≤ size-5) with fv[i] = fv[i+4] + 4; the source loop
assumes at least 5 distinct flush values (true for any set of distinct
cards once a flush is present). -/
def sfScan (fv : List Nat) : Option Nat :=
  ((List.range (fv.length - 4)).find?
      (fun i => decide (fv.getD i 0 = fv.getD (i + 4) 0 + 4))).map
    (fun i => fv.getD i 0)

/-- The straight-flush detection block of evaluateComplete: royal check first
(global straight with high 14 and 10..14 all in the flush suit), then the
A-5 wheel check on the flush values, then the descending window scan which
overrides the wheel result. -/
def straightFlushInfo (cs : List Card) : Bool × Nat :=
  match flushSuit? cs with
  | none => (false, 0)
  | some s =>
    let fcards := flushValuesDesc cs s
    if fcards.length < 5 then (false, 0)
    else
      let st := straightInfo (countValue cs)
      if st.1 = true ∧ st.2 = 14 ∧ ∀ v ∈ ([10, 11, 12, 13, 14] : List Nat), v ∈ fcards then
        (true, 14)
      else
        let fv := dedupAdj fcards
        let base : Bool × Nat :=
          if 14 ∈ fv ∧ 2 ∈ fv ∧ 3 ∈ fv ∧ 4 ∈ fv ∧ 5 ∈ fv then (true, 5)
          else (false, 0)
        match sfScan fv with
        | some h => (true, h)
        | none => base

/-- quads: ranks with count exactly 4, sorted descending (built ascending,
then std::sort descending). -/
def quadsOf (cs : List Card) : List Nat :=
  (rankList.filter (fun v => decide (countValue cs v = 4))).reverse

/-- trips: ranks with count exactly 3, sorted descending. -/
def tripsOf (cs : List Card) : List Nat :=
  (rankList.filter (fun v => decide (countValue cs v = 3))).reverse

/-- pairs: ranks with count exactly 2, sorted descending. -/
def pairsOf (cs : List Card) : List Nat :=
  (rankList.filter (fun v => decide (countValue cs v = 2))).reverse

/-- highCards: ranks with count exactly 1, scanned 14 down to 2. -/
def highCardsOf (cs : List Card) : List Nat :=
  (rankList.filter (fun v => decide (countValue cs v = 1))).reverse

/-- The FOUR_OF_A_KIND kicker: first rank 14 down to 2 with a positive count
different from the quad rank. -/
def quadKicker (cs : List Card) (q : Nat) : Option Nat :=
  revRanks.find? (fun i => decide (0 < countValue cs i) && decide (i ≠ q))

/-- HandEvaluator::evaluateComplete: the full category chain on a 7-card hand. -/
def evaluateComplete (cs : List Card) : HandEvaluation :=
  if (straightFlushInfo cs).1 = true ∧ (straightFlushInfo cs).2 = 14 then
    ⟨.ROYAL_FLUSH, [14]⟩
  else if (straightFlushInfo cs).1 = true then
    ⟨.STRAIGHT_FLUSH, [(straightFlushInfo cs).2]⟩
  else if quadsOf cs ≠ [] then
    ⟨.FOUR_OF_A_KIND,
      (quadsOf cs).headD 0 :: (quadKicker cs ((quadsOf cs).headD 0)).toList⟩
  else if tripsOf cs ≠ [] ∧ (pairsOf cs ≠ [] ∨ 1 < (tripsOf cs).length) then
    ⟨.FULL_HOUSE, [(tripsOf cs).headD 0,
      if pairsOf cs ≠ [] then (pairsOf cs).headD 0 else (tripsOf cs).getD 1 0]⟩
  else if (flushSuit? cs).isSome then
    ⟨.FLUSH, (flushValuesDesc cs ((flushSuit? cs).getD 0)).take 5⟩
  else if (straightInfo (countValue cs)).1 = true then
    ⟨.STRAIGHT, [(straightInfo (countValue cs)).2]⟩
  else if tripsOf cs ≠ [] then
    ⟨.THREE_OF_A_KIND, (tripsOf cs).headD 0 :: (highCardsOf cs).take 2⟩
  else if 2 ≤ (pairsOf cs).length then
    ⟨.TWO_PAIR,
      (pairsOf cs).headD 0 :: (pairsOf cs).getD 1 0 :: (highCardsOf cs).take 1⟩
  else if (pairsOf cs).length = 1 then
    ⟨.PAIR, (pairsOf cs).headD 0 :: (highCardsOf cs).take 3⟩
  else
    ⟨.HIGH_CARD, (revRanks.filter (fun v => decide (0 < countValue cs v))).take 5⟩

/-- HandEvaluator::evaluate dispatches to evaluateComplete when given exactly
7 cards; on any other size it first completes the hand with random cards
from a temporary deck (nondeterministic), modelled here as `none`. -/
def evaluateKnown (cs : List Card) : Option HandEvaluation :=
  if cs.length = 7 then some (evaluateComplete cs) else none

/-- PokerGame::isWinner on a completed board: bot hand = hole ++ board,
opponent hand = hole ++ board, bot wins iff its evaluation is strictly
greater under operator>. -/
def isWinner (botHole oppHole board : List Card) : Option Bool :=
  match evaluateKnown (botHole ++ board), evaluateKnown (oppHole ++ board) with
  | some e1, some e2 => some (gtEval e1 e2)
  | _, _ => none

/-- One iteration of the runMCTS tally: totalRuns++ always,
winningRuns++ exactly when the trial was a win. -/
def recordTrial (stats : Nat × Nat) (won : Bool) : Nat × Nat :=
  (stats.1 + 1, if won then stats.2 + 1 else stats.2)

/-- The runMCTS tally over a sequence of trial outcomes, starting from
totalRuns = 0, winningRuns = 0. -/
def runTally (outcomes : List Bool) : Nat × Nat :=
  outcomes.foldl recordTrial (0, 0)

/-- WIN_PROBABILITY_THRESHOLD = 0.5. -/
def winProbThreshold : ℚ := 1 / 2

/-- MCTSNode::getWinProbability: 0.0 when visits = 0, else wins/visits
(double arithmetic is exact for these claims; modelled in ℚ). -/
def getWinProbability (wins visits : Nat) : ℚ :=
  if visits = 0 then 0 else (wins : ℚ) / (visits : ℚ)

/-- PokerBot::shouldStay: stay iff win probability ≥ threshold. -/
def shouldStay (wins visits : Nat) : Bool :=
  decide (winProbThreshold ≤ getWinProbability wins visits)

/-- Draw n cards in sequence (each from the back of the deck). -/
def dealN : Nat → List Card → Option (List Card × List Card)
  | 0, d => some ([], d)
  | n + 1, d =>
    match deal d with
    | none => none
    | some (c, d1) =>
      match dealN n d1 with
      | none => none
      | some (cs, d2) => some (c :: cs, d2)

/-- PokerGame::initialize(known): reset the deck to the 52 canonical cards
and remove the bot hole cards then the known community cards. -/
def removeKnown (known : List Card) : List Card :=
  known.foldl removeCard freshDeck

/-- One simulation trial after the shuffle: given a permutation `shuffled` of
the deck with the known cards removed, deal 2 opponent hole cards, then
complete the board to 5 community cards, and return the 9 cards used by the
trial (bot hole, opponent hole, full board). -/
def simTrialCards (bot comm shuffled : List Card) : Option (List Card) :=
  match dealN 2 shuffled with
  | none => none
  | some (opp, d1) =>
    match dealN (5 - comm.length) d1 with
    | none => none
    | some (extra, _) => some (bot ++ opp ++ (comm ++ extra))

/-- The tiebreaker-sequence length each category carries for a 7-card hand. -/
def tbLen : HandRank → Nat
  | .ROYAL_FLUSH => 1
  | .STRAIGHT_FLUSH => 1
  | .FOUR_OF_A_KIND => 2
  | .FULL_HOUSE => 2
  | .FLUSH => 5
  | .STRAIGHT => 1
  | .THREE_OF_A_KIND => 3
  | .TWO_PAIR => 3
  | .PAIR => 4
  | .HIGH_CARD => 5

/-! Helper lemmas. -/

/-- The tiebreaker loop returns false on identical sequences. -/
lemma tbGt_self : ∀ l : List Nat, tbGt l l = false := by
  intro l
  induction l with
  | nil => rfl
  | cons x xs ih => simpa [tbGt] using ih

/-- operator== implies operator> is false. -/
lemma gtEval_eq_false_of_eqEval {a b : HandEvaluation} (h : eqEval a b = true) :
    gtEval a b = false := by
  simp only [eqEval, Bool.and_eq_true, decide_eq_true_eq] at h
  obtain ⟨h1, h2⟩ := h
  rw [gtEval, if_pos h1, h2, tbGt_self]

/-- The enum values of distinct HandRank constructors differ. -/
lemma rankNat_injective : ∀ x y : HandRank, rankNat x = rankNat y → x = y := by
  intro x y h
  cases x <;> cases y <;> first
    | rfl
    | (exfalso; simp [rankNat] at h)

/-- Trichotomy for the tiebreaker loop on equal-length sequences. -/
lemma tbGt_trichotomy : ∀ xs ys : List Nat, xs.length = ys.length →
    (tbGt xs ys = true ∧ tbGt ys xs = false ∧ xs ≠ ys) ∨
    (tbGt xs ys = false ∧ tbGt ys xs = true ∧ xs ≠ ys) ∨
    (tbGt xs ys = false ∧ tbGt ys xs = false ∧ xs = ys) := by
  intro xs
  induction xs with
  | nil =>
    intro ys h
    cases ys with
    | nil => exact Or.inr (Or.inr ⟨rfl, rfl, rfl⟩)
    | cons y ys => simp at h
  | cons x xs ih =>
    intro ys h
    cases ys with
    | nil => simp at h
    | cons y ys =>
      by_cases hxy : x = y
      · subst hxy
        have hlen : xs.length = ys.length := by simpa using h
        rcases ih ys hlen with ⟨h1, h2, h3⟩ | ⟨h1, h2, h3⟩ | ⟨h1, h2, h3⟩
        · exact Or.inl ⟨by simpa [tbGt] using h1, by simpa [tbGt] using h2,
            by simp [h3]⟩
        · exact Or.inr (Or.inl ⟨by simpa [tbGt] using h1, by simpa [tbGt] using h2,
            by simp [h3]⟩)
        · exact Or.inr (Or.inr ⟨by simpa [tbGt] using h1, by simpa [tbGt] using h2,
            by simp [h3]⟩)
      · have hyx : ¬ y = x := fun h' => hxy h'.symm
        have e1 : tbGt (x :: xs) (y :: ys) = decide (x > y) := by simp [tbGt, hxy]
        have e2 : tbGt (y :: ys) (x :: xs) = decide (y > x) := by simp [tbGt, hyx]
        rcases Nat.lt_trichotomy x y with hlt | heq | hgt
        · refine Or.inr (Or.inl ⟨?_, ?_, ?_⟩)
          · simp [e1]; omega
          · simp [e2]; omega
          · simp [hxy]
        · exact absurd heq hxy
        · refine Or.inl ⟨?_, ?_, ?_⟩
          · simp [e1]; omega
          · simp [e2]; omega
          · simp [hxy]

/-! C8: Deck::deal. -/

/-- C8: deal fails (DeckExhausted) exactly on the empty deck; on any deck
written as l ++ [c] it returns the back card c and leaves l, so on a 1-card
deck it returns that card and leaves the deck empty. -/
theorem deal_back_or_exhausted (d : List Card) :
    (deal d = none ↔ d = []) ∧ ∀ l c, d = l ++ [c] → deal d = some (c, l) := by
  constructor
  · constructor
    · intro h
      rcases hd : d.getLast? with _ | c
      · exact List.getLast?_eq_none_iff.mp hd
      · rw [deal, hd] at h
        exact absurd h (by simp)
    · rintro rfl
      rfl
  · rintro l c rfl
    rw [deal, List.getLast?_concat, List.dropLast_concat]

/-- Witness for C8 at the 1-card deck [2 of clubs]. -/
theorem deal_back_or_exhausted_witness :
    deal [(⟨0, 2⟩ : Card)] = some (⟨0, 2⟩, []) :=
  (deal_back_or_exhausted [⟨0, 2⟩]).2 [] ⟨0, 2⟩ rfl

/-! C9: the card/integer encoding. -/

/-- C9: toInt maps every valid card into [0,51] and fromInt inverts it; on
the other side, toInt inverts fromInt on every integer in [0,51]. -/
theorem card_int_bijection :
    (∀ c : Card, ValidCard c → c.toInt ≤ 51 ∧ Card.fromInt c.toInt = c) ∧
    ∀ n : Nat, n ≤ 51 → (Card.fromInt n).toInt = n := by
  constructor
  · rintro ⟨s, v⟩ ⟨hs, hv1, hv2⟩
    simp only [Card.toInt, Card.fromInt] at *
    refine ⟨by omega, ?_⟩
    simp only [Card.mk.injEq]
    omega
  · intro n hn
    simp only [Card.toInt, Card.fromInt]
    omega

/-- Witness for C9 at the jack of hearts (suit 2, value 11) and index 37. -/
theorem card_int_bijection_witness :
    ((⟨2, 11⟩ : Card).toInt ≤ 51 ∧ Card.fromInt (⟨2, 11⟩ : Card).toInt = ⟨2, 11⟩) ∧
    (Card.fromInt 37).toInt = 37 :=
  ⟨card_int_bijection.1 ⟨2, 11⟩ (by decide), card_int_bijection.2 37 (by decide)⟩

/-! C2: zero completed trials. -/

/-- C2, evaluated at the failing input: with zero completed trials the tally
is totalRuns = 0 and winningRuns = 0, getWinProbability returns 0, and
shouldStay returns false — the decision layer silently yields FOLD, with no
undecided outcome. -/
theorem zero_trials_silent_fold :
    runTally [] = (0, 0) ∧ getWinProbability 0 0 = 0 ∧ shouldStay 0 0 = false := by
  refine ⟨rfl, by simp [getWinProbability], ?_⟩
  simp only [shouldStay, getWinProbability, winProbThreshold, if_pos rfl]
  norm_num

/-! C1: the TWO_PAIR kicker on a three-pair hand. -/

/-- C1, evaluated at the failing input: on the three-pair hand
AC AD KC KD QC QD 2C the evaluator returns TWO_PAIR with tiebreakers
[14, 13, 2], although the highest rank among the cards outside the two
highest pairs is 12 (the third pair's rank). -/
theorem twoPair_drops_third_pair_kicker :
    evaluateComplete
        [⟨0, 14⟩, ⟨1, 14⟩, ⟨0, 13⟩, ⟨1, 13⟩, ⟨0, 12⟩, ⟨1, 12⟩, ⟨0, 2⟩]
      = ⟨.TWO_PAIR, [14, 13, 2]⟩ ∧
    ((([⟨0, 14⟩, ⟨1, 14⟩, ⟨0, 13⟩, ⟨1, 13⟩, ⟨0, 12⟩, ⟨1, 12⟩, ⟨0, 2⟩] : List Card).filter
        (fun c => decide (c.value ≠ 14 ∧ c.value ≠ 13))).map Card.value).foldr
      max 0 = 12 := by
  decide

/-! C6: the comparison on HandEvaluation. -/

/-- C6 counterexample: on the two PAIR evaluations with tiebreakers [5] and
[5, 3], neither operator> direction holds and operator== is false, so
"exactly one of >, <, ==" fails on raw HandEvaluation values. -/
theorem handEval_trichotomy_fails :
    gtEval ⟨.PAIR, [5]⟩ ⟨.PAIR, [5, 3]⟩ = false ∧
    gtEval ⟨.PAIR, [5, 3]⟩ ⟨.PAIR, [5]⟩ = false ∧
    eqEval ⟨.PAIR, [5]⟩ ⟨.PAIR, [5, 3]⟩ = false := by
  decide

/-- C6 as amended: for HandEvaluation values whose tiebreaker sequences have
equal length whenever the categories are equal (as holds for all outputs of
evaluateComplete on 7-card hands), exactly one of a > b, b > a, a == b holds:
categories compare first, then tiebreakers element-wise, equal sequences
meaning a tie. -/
theorem handEval_trichotomy (a b : HandEvaluation)
    (h : a.rank = b.rank → a.tiebreakers.length = b.tiebreakers.length) :
    (gtEval a b = true ∧ gtEval b a = false ∧ eqEval a b = false) ∨
    (gtEval a b = false ∧ gtEval b a = true ∧ eqEval a b = false) ∨
    (gtEval a b = false ∧ gtEval b a = false ∧ eqEval a b = true) := by
  by_cases hr : a.rank = b.rank
  · have e1 : gtEval a b = tbGt a.tiebreakers b.tiebreakers := by
      rw [gtEval, if_pos hr]
    have e2 : gtEval b a = tbGt b.tiebreakers a.tiebreakers := by
      rw [gtEval, if_pos hr.symm]
    rcases tbGt_trichotomy a.tiebreakers b.tiebreakers (h hr) with
      ⟨h1, h2, h3⟩ | ⟨h1, h2, h3⟩ | ⟨h1, h2, h3⟩
    · exact Or.inl ⟨e1 ▸ h1, e2 ▸ h2, by simp [eqEval, hr, h3]⟩
    · exact Or.inr (Or.inl ⟨e1 ▸ h1, e2 ▸ h2, by simp [eqEval, hr, h3]⟩)
    · exact Or.inr (Or.inr ⟨e1 ▸ h1, e2 ▸ h2, by simp [eqEval, hr, h3]⟩)
  · have hr' : ¬ b.rank = a.rank := fun h' => hr h'.symm
    have e1 : gtEval a b = decide (rankNat a.rank > rankNat b.rank) := by
      rw [gtEval, if_neg hr]
    have e2 : gtEval b a = decide (rankNat b.rank > rankNat a.rank) := by
      rw [gtEval, if_neg hr']
    have hne : rankNat a.rank ≠ rankNat b.rank :=
      fun h' => hr (rankNat_injective _ _ h')
    have heq : eqEval a b = false := by simp [eqEval, hr]
    rcases Nat.lt_trichotomy (rankNat a.rank) (rankNat b.rank) with hlt | hmid | hgt
    · refine Or.inr (Or.inl ⟨?_, ?_, heq⟩)
      · simp [e1]; omega
      · simp [e2]; omega
    · exact absurd hmid hne
    · refine Or.inl ⟨?_, ?_, heq⟩
      · simp [e1]; omega
      · simp [e2]; omega

/-- Witness for C6 (amended) on a FLUSH vs PAIR comparison. -/
theorem handEval_trichotomy_witness :
    (gtEval ⟨.FLUSH, [14, 9, 7, 4, 2]⟩ ⟨.PAIR, [5, 14, 9, 7]⟩ = true ∧
      gtEval ⟨.PAIR, [5, 14, 9, 7]⟩ ⟨.FLUSH, [14, 9, 7, 4, 2]⟩ = false ∧
      eqEval ⟨.FLUSH, [14, 9, 7, 4, 2]⟩ ⟨.PAIR, [5, 14, 9, 7]⟩ = false) ∨
    (gtEval ⟨.FLUSH, [14, 9, 7, 4, 2]⟩ ⟨.PAIR, [5, 14, 9, 7]⟩ = false ∧
      gtEval ⟨.PAIR, [5, 14, 9, 7]⟩ ⟨.FLUSH, [14, 9, 7, 4, 2]⟩ = true ∧
      eqEval ⟨.FLUSH, [14, 9, 7, 4, 2]⟩ ⟨.PAIR, [5, 14, 9, 7]⟩ = false) ∨
    (gtEval ⟨.FLUSH, [14, 9, 7, 4, 2]⟩ ⟨.PAIR, [5, 14, 9, 7]⟩ = false ∧
      gtEval ⟨.PAIR, [5, 14, 9, 7]⟩ ⟨.FLUSH, [14, 9, 7, 4, 2]⟩ = false ∧
      eqEval ⟨.FLUSH, [14, 9, 7, 4, 2]⟩ ⟨.PAIR, [5, 14, 9, 7]⟩ = true) :=
  handEval_trichotomy ⟨.FLUSH, [14, 9, 7, 4, 2]⟩ ⟨.PAIR, [5, 14, 9, 7]⟩ (by decide)

/-! C7: win recording. -/

/-- C7: on a trial with 2 bot hole cards, 2 opponent hole cards and a 5-card
board, isWinner evaluates both 7-card hands through evaluateComplete and
reports a win exactly when the bot's evaluation is strictly greater under
operator>; an exact tie (operator==) yields a non-win; the runMCTS tally
then increments winningRuns exactly on wins. -/
theorem trial_win_iff_strictly_greater (botHole oppHole board : List Card)
    (t w : Nat) (hb : botHole.length = 2) (ho : oppHole.length = 2)
    (hbd : board.length = 5) :
    isWinner botHole oppHole board =
      some (gtEval (evaluateComplete (botHole ++ board))
        (evaluateComplete (oppHole ++ board))) ∧
    (eqEval (evaluateComplete (botHole ++ board))
        (evaluateComplete (oppHole ++ board)) = true →
      isWinner botHole oppHole board = some false) ∧
    ∀ won, isWinner botHole oppHole board = some won →
      recordTrial (t, w) won = (t + 1, if won = true then w + 1 else w) := by
  have e1 : evaluateKnown (botHole ++ board)
      = some (evaluateComplete (botHole ++ board)) := by
    rw [evaluateKnown, if_pos (by simp [hb, hbd])]
  have e2 : evaluateKnown (oppHole ++ board)
      = some (evaluateComplete (oppHole ++ board)) := by
    rw [evaluateKnown, if_pos (by simp [ho, hbd])]
  have hmain : isWinner botHole oppHole board =
      some (gtEval (evaluateComplete (botHole ++ board))
        (evaluateComplete (oppHole ++ board))) := by
    rw [isWinner, e1, e2]
  refine ⟨hmain, ?_, ?_⟩
  · intro heq
    rw [hmain, gtEval_eq_false_of_eqEval heq]
  · intro won _
    rfl

/-- Witness for C7: bot holds a pair of aces against a deuce-trey opponent on
a blank board. -/
theorem trial_win_iff_strictly_greater_witness :
    isWinner [⟨0, 14⟩, ⟨1, 14⟩] [⟨0, 2⟩, ⟨1, 3⟩] [⟨2, 5⟩, ⟨3, 7⟩, ⟨2, 9⟩, ⟨3, 11⟩, ⟨2, 13⟩] =
      some (gtEval
        (evaluateComplete ([⟨0, 14⟩, ⟨1, 14⟩] ++ [⟨2, 5⟩, ⟨3, 7⟩, ⟨2, 9⟩, ⟨3, 11⟩, ⟨2, 13⟩]))
        (evaluateComplete ([⟨0, 2⟩, ⟨1, 3⟩] ++ [⟨2, 5⟩, ⟨3, 7⟩, ⟨2, 9⟩, ⟨3, 11⟩, ⟨2, 13⟩]))) :=
  (trial_win_iff_strictly_greater [⟨0, 14⟩, ⟨1, 14⟩] [⟨0, 2⟩, ⟨1, 3⟩]
    [⟨2, 5⟩, ⟨3, 7⟩, ⟨2, 9⟩, ⟨3, 11⟩, ⟨2, 13⟩] 0 0 rfl rfl rfl).1

/-! C3: straight detection. -/

/-- find? on a strictly descending list returns a maximal satisfying element. -/
lemma find?_max_of_sortedDesc {p : Nat → Bool} :
    ∀ {l : List Nat} {x : Nat}, l.Pairwise (fun a b => b < a) →
      l.find? p = some x → p x = true ∧ ∀ y ∈ l, p y = true → y ≤ x := by
  intro l
  induction l with
  | nil => intro x _ hf; simp at hf
  | cons a l ih =>
    intro x hp hf
    rcases List.pairwise_cons.mp hp with ⟨ha, hl⟩
    by_cases hpa : p a = true
    · rw [List.find?_cons_of_pos l hpa] at hf
      obtain rfl : a = x := by injection hf
      refine ⟨hpa, ?_⟩
      intro y hy _
      rcases List.mem_cons.mp hy with rfl | hy'
      · exact Nat.le_refl _
      · exact Nat.le_of_lt (ha y hy')
    · rw [List.find?_cons_of_neg l hpa] at hf
      obtain ⟨hx, hmax⟩ := ih hl hf
      refine ⟨hx, ?_⟩
      intro y hy hpy
      rcases List.mem_cons.mp hy with rfl | hy'
      · exact absurd hpy hpa
      · exact hmax y hy' hpy

/-- C3: whenever a 7-card hand contains five consecutive ranks (a window
starting in 2..10, or the wheel A-2-3-4-5), the straight detection reports a
straight; if any window is present the reported high card is the highest
qualifying one, lying in 6..14; the wheel's high card 5 is reported only
when no window straight exists. -/
theorem straight_prefers_highest_window (cs : List Card)
    (hstr : wheelB (countValue cs) = true ∨
      ∃ i ∈ windowStarts, windowB (countValue cs) i = true) :
    (straightInfo (countValue cs)).1 = true ∧
    ((∃ i ∈ windowStarts, windowB (countValue cs) i = true) →
      6 ≤ (straightInfo (countValue cs)).2 ∧ (straightInfo (countValue cs)).2 ≤ 14 ∧
      windowB (countValue cs) ((straightInfo (countValue cs)).2 - 4) = true ∧
      ∀ i ∈ windowStarts, windowB (countValue cs) i = true →
        i + 4 ≤ (straightInfo (countValue cs)).2) ∧
    ((∀ i ∈ windowStarts, windowB (countValue cs) i = false) →
      wheelB (countValue cs) = true ∧ (straightInfo (countValue cs)).2 = 5) := by
  rcases hfind : windowStarts.find? (windowB (countValue cs)) with _ | i
  · have hall : ∀ i ∈ windowStarts, ¬ windowB (countValue cs) i = true :=
      List.find?_eq_none.mp hfind
    have hwheel : wheelB (countValue cs) = true := by
      rcases hstr with h | ⟨i, hi, hw⟩
      · exact h
      · exact absurd hw (hall i hi)
    have heval : straightInfo (countValue cs) = (true, 5) := by
      rw [straightInfo, hfind, hwheel]
      rfl
    refine ⟨by rw [heval], ?_, ?_⟩
    · rintro ⟨i, hi, hw⟩
      exact absurd hw (hall i hi)
    · intro _
      exact ⟨hwheel, by rw [heval]⟩
  · have hsorted : windowStarts.Pairwise (fun a b => b < a) := by decide
    obtain ⟨hpi, hmax⟩ := find?_max_of_sortedDesc hsorted hfind
    have hmem : i ∈ windowStarts := List.mem_of_find?_eq_some hfind
    have hibnd : 2 ≤ i ∧ i ≤ 10 := by
      simp only [windowStarts, List.mem_cons, List.not_mem_nil, or_false] at hmem
      omega
    have heval : straightInfo (countValue cs) = (true, i + 4) := by
      rw [straightInfo, hfind]
    refine ⟨by rw [heval], ?_, ?_⟩
    · intro _
      rw [heval]
      refine ⟨by omega, by omega, ?_, ?_⟩
      · have : i + 4 - 4 = i := by omega
        rw [this]
        exact hpi
      · intro j hj hwj
        exact Nat.add_le_add_right (hmax j hj hwj) 4
    · intro hall
      exact absurd hpi (by simp [hall i hmem])

/-- Witness for C3 on the hand 2,3,4,5,6,9,Q of mixed suits (a 6-high
straight). -/
theorem straight_prefers_highest_window_witness :
    (straightInfo (countValue
      [⟨0, 2⟩, ⟨1, 3⟩, ⟨2, 4⟩, ⟨3, 5⟩, ⟨0, 6⟩, ⟨1, 9⟩, ⟨2, 12⟩])).1 = true ∧
    6 ≤ (straightInfo (countValue
      [⟨0, 2⟩, ⟨1, 3⟩, ⟨2, 4⟩, ⟨3, 5⟩, ⟨0, 6⟩, ⟨1, 9⟩, ⟨2, 12⟩])).2 :=
  ⟨(straight_prefers_highest_window
      [⟨0, 2⟩, ⟨1, 3⟩, ⟨2, 4⟩, ⟨3, 5⟩, ⟨0, 6⟩, ⟨1, 9⟩, ⟨2, 12⟩]
      (Or.inr ⟨2, by decide, by decide⟩)).1,
    ((straight_prefers_highest_window
      [⟨0, 2⟩, ⟨1, 3⟩, ⟨2, 4⟩, ⟨3, 5⟩, ⟨0, 6⟩, ⟨1, 9⟩, ⟨2, 12⟩]
      (Or.inr ⟨2, by decide, by decide⟩)).2.1 ⟨2, by decide, by decide⟩).1⟩

/-! Counting machinery for the category-chain claims. -/

/-- Membership in the rank domain. -/
lemma mem_rankList {v : Nat} : v ∈ rankList ↔ 2 ≤ v ∧ v ≤ 14 := by
  simp only [rankList, List.mem_cons, List.not_mem_nil, or_false]
  omega

/-- Membership in the descending rank domain. -/
lemma mem_revRanks {v : Nat} : v ∈ revRanks ↔ 2 ≤ v ∧ v ≤ 14 := by
  simp only [revRanks, List.mem_cons, List.not_mem_nil, or_false]
  omega

/-- The descending rank scan is the reverse of the ascending one. -/
lemma revRanks_eq_reverse : revRanks = rankList.reverse := by decide

/-- Unfolding countValue over a cons. -/
lemma countValue_cons (x : Card) (cs : List Card) (v : Nat) :
    countValue (x :: cs) v = (if x.value = v then 1 else 0) + countValue cs v := by
  by_cases h : x.value = v <;> simp [countValue, List.filter_cons, h, Nat.add_comm]

/-- Sums of pointwise additions split. -/
lemma sum_map_add {α : Type} (l : List α) (f g : α → Nat) :
    (l.map (fun x => f x + g x)).sum = (l.map f).sum + (l.map g).sum := by
  induction l with
  | nil => simp
  | cons a l ih => simp [ih]; omega

/-- An indicator sums to 0 over a list avoiding its point. -/
lemma sum_indicator_not_mem (l : List Nat) (a : Nat) (ha : a ∉ l) :
    (l.map (fun v => if a = v then 1 else 0)).sum = 0 := by
  induction l with
  | nil => simp
  | cons b l ih =>
    simp only [List.mem_cons, not_or] at ha
    simp [ha.1, ih ha.2]

/-- An indicator sums to 1 over a duplicate-free list containing its point. -/
lemma sum_indicator_mem (l : List Nat) (a : Nat) (hnd : l.Nodup) (ha : a ∈ l) :
    (l.map (fun v => if a = v then 1 else 0)).sum = 1 := by
  induction l with
  | nil => cases ha
  | cons b l ih =>
    obtain ⟨hb, hl⟩ := List.nodup_cons.mp hnd
    rcases List.mem_cons.mp ha with rfl | h
    · simp [sum_indicator_not_mem l a hb]
    · have hab : a ≠ b := by
        rintro rfl
        exact hb h
      simp [hab, ih hl h]

/-- Each of the 7 cards is counted exactly once across the rank domain. -/
lemma sum_countValue (cs : List Card)
    (hv : ∀ c ∈ cs, 2 ≤ c.value ∧ c.value ≤ 14) :
    (rankList.map (countValue cs)).sum = cs.length := by
  induction cs with
  | nil => decide
  | cons x cs ih =>
    have hx := hv x (List.mem_cons_self x cs)
    have hrest := ih (fun c hc => hv c (List.mem_cons_of_mem x hc))
    have h1 : (rankList.map (fun v => countValue (x :: cs) v)).sum =
        (rankList.map (fun v => (if x.value = v then 1 else 0) + countValue cs v)).sum := by
      simp only [countValue_cons]
    have hrest' : (rankList.map (fun v => countValue cs v)).sum = cs.length := hrest
    show (rankList.map (fun v => countValue (x :: cs) v)).sum = (x :: cs).length
    rw [h1, sum_map_add,
      sum_indicator_mem rankList x.value (by decide) (mem_rankList.mpr hx), hrest']
    simp only [List.length_cons]
    omega

/-- A sum of per-rank counts, each at most 4, splits by count class. -/
lemma sum_split (r : List Nat) (f : Nat → Nat) (h4 : ∀ v ∈ r, f v ≤ 4) :
    (r.map f).sum =
      4 * (r.filter (fun v => decide (f v = 4))).length +
        3 * (r.filter (fun v => decide (f v = 3))).length +
        2 * (r.filter (fun v => decide (f v = 2))).length +
        (r.filter (fun v => decide (f v = 1))).length := by
  induction r with
  | nil => simp
  | cons a r ih =>
    have ha : f a ≤ 4 := h4 a (List.mem_cons_self a r)
    have ih' := ih (fun v hv => h4 v (List.mem_cons_of_mem a hv))
    simp only [List.map_cons, List.sum_cons, List.filter_cons]
    obtain ⟨m, hm⟩ : ∃ m, f a = m := ⟨f a, rfl⟩
    rw [hm]
    have hm4 : m ≤ 4 := hm ▸ ha
    interval_cases m <;> simp [ih'] <;> omega

/-- At most 4 cards of any one value among distinct valid cards. -/
lemma countValue_le_four (cs : List Card) (hnd : cs.Nodup)
    (hs : ∀ c ∈ cs, c.suit < 4) (v : Nat) : countValue cs v ≤ 4 := by
  have h1 : (cs.filter (fun c => decide (c.value = v))).Nodup := hnd.filter _
  have h2 : ((cs.filter (fun c => decide (c.value = v))).map Card.suit).Nodup := by
    refine h1.map_on ?_
    rintro ⟨s1, v1⟩ hx ⟨s2, v2⟩ hy hxy
    have e1 : v1 = v := by simpa using (List.mem_filter.mp hx).2
    have e2 : v2 = v := by simpa using (List.mem_filter.mp hy).2
    simp only at hxy
    simp [hxy, e1, e2]
  have h3 : (cs.filter (fun c => decide (c.value = v))).map Card.suit ⊆
      [0, 1, 2, 3] := by
    intro s hsm
    obtain ⟨c, hc, rfl⟩ := List.mem_map.mp hsm
    have := hs c (List.mem_of_mem_filter hc)
    simp only [List.mem_cons, List.not_mem_nil, or_false]
    omega
  have h4 := (List.subperm_of_subset h2 h3).length_le
  simpa [countValue] using h4

/-- A rank with a positive count is held by some card, hence lies in 2..14. -/
lemma range_of_countValue_pos (cs : List Card) (hv : ∀ c ∈ cs, ValidCard c)
    (v : Nat) (h : 0 < countValue cs v) : 2 ≤ v ∧ v ≤ 14 := by
  rw [countValue, List.length_pos] at h
  obtain ⟨c, hc⟩ := List.exists_mem_of_ne_nil _ h
  have hcv : c.value = v := by simpa using (List.mem_filter.mp hc).2
  have := hv c (List.mem_of_mem_filter hc)
  obtain ⟨_, h2, h14⟩ := this
  omega

/-- Membership in a count-class list. -/
lemma mem_group {cs : List Card} {k v : Nat} :
    v ∈ (rankList.filter (fun u => decide (countValue cs u = k))).reverse ↔
      v ∈ rankList ∧ countValue cs v = k := by
  rw [List.mem_reverse, List.mem_filter]
  simp

/-- A count-class list is strictly descending. -/
lemma group_sorted (cs : List Card) (k : Nat) :
    ((rankList.filter (fun v => decide (countValue cs v = k))).reverse).Pairwise
      (fun a b => b < a) := by
  rw [List.pairwise_reverse]
  exact List.Pairwise.filter _ (by decide : rankList.Pairwise (· < ·))

/-- A count-class list is empty iff no rank has that count. -/
lemma group_eq_nil {cs : List Card} {k : Nat} :
    (rankList.filter (fun v => decide (countValue cs v = k))).reverse = [] ↔
      ∀ v ∈ rankList, countValue cs v ≠ k := by
  rw [List.reverse_eq_nil_iff, List.filter_eq_nil_iff]
  simp

/-- The headD of a nonempty list is a member. -/
lemma headD_mem {l : List Nat} (h : l ≠ []) : l.headD 0 ∈ l := by
  cases l with
  | nil => exact absurd rfl h
  | cons a t => simp

/-- The headD of a strictly descending list bounds every member. -/
lemma headD_max {l : List Nat} (hl : l.Pairwise (fun a b => b < a)) :
    ∀ y ∈ l, y ≤ l.headD 0 := by
  cases l with
  | nil => intro y hy; cases hy
  | cons a t =>
    intro y hy
    rcases List.mem_cons.mp hy with rfl | h
    · simp
    · have := (List.pairwise_cons.mp hl).1 y h
      simp only [List.headD_cons]
      omega

/-- The total count over a distinct valid 7-card hand splits as
4·#quads + 3·#trips + 2·#pairs + #singles = 7. -/
lemma count_arith (cs : List Card) (hlen : cs.length = 7) (hnd : cs.Nodup)
    (hv : ∀ c ∈ cs, ValidCard c) :
    4 * (quadsOf cs).length + 3 * (tripsOf cs).length +
      2 * (pairsOf cs).length + (highCardsOf cs).length = 7 := by
  have hsum : (rankList.map (countValue cs)).sum = 7 := by
    rw [sum_countValue cs (fun c hc => (hv c hc).2), hlen]
  have hsplit := sum_split rankList (countValue cs)
    (fun v _ => countValue_le_four cs hnd (fun c hc => (hv c hc).1) v)
  rw [quadsOf, tripsOf, pairsOf, highCardsOf]
  simp only [List.length_reverse]
  omega

/-! C10: tiebreaker lengths. -/

/-- insertDesc adds exactly one element. -/
lemma length_insertDesc (x : Nat) : ∀ l : List Nat,
    (insertDesc x l).length = l.length + 1 := by
  intro l
  induction l with
  | nil => rfl
  | cons y ys ih =>
    rw [insertDesc]
    by_cases h : y ≤ x
    · simp [h]
    · simp [h, ih]

/-- Sorting preserves length. -/
lemma length_sortDesc (l : List Nat) : (sortDesc l).length = l.length := by
  induction l with
  | nil => rfl
  | cons x xs ih =>
    show (insertDesc x (sortDesc xs)).length = xs.length + 1
    rw [length_insertDesc, ih]

/-- If some rank has count 4, a kicker rank exists for the quad branch. -/
lemma quadKicker_isSome (cs : List Card) (hlen : cs.length = 7) (hnd : cs.Nodup)
    (hv : ∀ c ∈ cs, ValidCard c) (hq : quadsOf cs ≠ []) :
    ∃ k, quadKicker cs ((quadsOf cs).headD 0) = some k := by
  have harith := count_arith cs hlen hnd hv
  have hq1 : 0 < (quadsOf cs).length := List.length_pos.mpr hq
  have hqlt : 4 * (quadsOf cs).length ≤ 7 := by omega
  have hqeq : (quadsOf cs).length = 1 := by omega
  have hq4 : countValue cs ((quadsOf cs).headD 0) = 4 := by
    have := headD_mem hq
    rw [quadsOf] at this
    exact (mem_group.mp this).2
  have hrest : 0 < 3 * (tripsOf cs).length + 2 * (pairsOf cs).length +
      (highCardsOf cs).length := by omega
  have hex : ∃ v, v ∈ rankList ∧ 0 < countValue cs v ∧ countValue cs v ≠ 4 := by
    by_cases hT : tripsOf cs = []
    · by_cases hP : pairsOf cs = []
      · have hH : highCardsOf cs ≠ [] := by
          intro h
          rw [hT, hP, h] at hrest
          simp at hrest
        obtain ⟨v, hvm⟩ := List.exists_mem_of_ne_nil _ hH
        rw [highCardsOf] at hvm
        obtain ⟨h1, h2⟩ := mem_group.mp hvm
        exact ⟨v, h1, by omega, by omega⟩
      · obtain ⟨v, hvm⟩ := List.exists_mem_of_ne_nil _ hP
        rw [pairsOf] at hvm
        obtain ⟨h1, h2⟩ := mem_group.mp hvm
        exact ⟨v, h1, by omega, by omega⟩
    · obtain ⟨v, hvm⟩ := List.exists_mem_of_ne_nil _ hT
      rw [tripsOf] at hvm
      obtain ⟨h1, h2⟩ := mem_group.mp hvm
      exact ⟨v, h1, by omega, by omega⟩
  obtain ⟨v, hvr, hvpos, hvne4⟩ := hex
  rcases hres : quadKicker cs ((quadsOf cs).headD 0) with _ | k
  · exfalso
    have hall := List.find?_eq_none.mp hres
    have hvrev : v ∈ revRanks := mem_revRanks.mpr (mem_rankList.mp hvr)
    have hvq : v ≠ (quadsOf cs).headD 0 := by
      intro h
      rw [h, hq4] at hvne4
      exact hvne4 rfl
    have hok : (decide (0 < countValue cs v) && decide (v ≠ (quadsOf cs).headD 0)) = true := by
      rw [Bool.and_eq_true, decide_eq_true_eq, decide_eq_true_eq]
      exact ⟨hvpos, hvq⟩
    exact hall v hvrev hok
  · exact ⟨k, rfl⟩

/-- C10: on every 7-card hand of distinct valid cards, evaluateComplete
returns a non-empty tiebreaker list whose length is determined solely by the
category: 1 for ROYAL_FLUSH/STRAIGHT_FLUSH/STRAIGHT, 2 for
FOUR_OF_A_KIND/FULL_HOUSE, 3 for THREE_OF_A_KIND/TWO_PAIR, 4 for PAIR,
5 for FLUSH/HIGH_CARD. -/
theorem tiebreaker_length_by_category (cs : List Card) (hlen : cs.length = 7)
    (hnd : cs.Nodup) (hv : ∀ c ∈ cs, ValidCard c) :
    (evaluateComplete cs).tiebreakers ≠ [] ∧
    (evaluateComplete cs).tiebreakers.length = tbLen (evaluateComplete cs).rank := by
  have harith := count_arith cs hlen hnd hv
  suffices h : (evaluateComplete cs).tiebreakers.length = tbLen (evaluateComplete cs).rank by
    refine ⟨?_, h⟩
    intro hnil
    have h1 : 1 ≤ tbLen (evaluateComplete cs).rank := by
      cases (evaluateComplete cs).rank <;> simp [tbLen]
    rw [← h, hnil] at h1
    simp at h1
  rw [evaluateComplete]
  split_ifs with h1 h2 h3 h4 h5 h6 h7 h8 h9 h10
  · rfl
  · rfl
  · obtain ⟨k, hk⟩ := quadKicker_isSome cs hlen hnd hv h3
    show ((quadsOf cs).headD 0 :: (quadKicker cs ((quadsOf cs).headD 0)).toList).length = 2
    rw [hk]
    rfl
  · rfl
  · rfl
  · obtain ⟨s, hs⟩ := Option.isSome_iff_exists.mp h6
    have hcount : 5 ≤ countSuit cs s := by
      have := List.find?_some hs
      simpa using this
    have hflen : (flushValuesDesc cs s).length = countSuit cs s := by
      rw [flushValuesDesc, length_sortDesc, List.length_map, countSuit]
    show ((flushValuesDesc cs ((flushSuit? cs).getD 0)).take 5).length = 5
    rw [hs]
    simp only [Option.getD_some, List.length_take, hflen]
    omega
  · rfl
  · have hT1 : 0 < (tripsOf cs).length := List.length_pos.mpr h8
    have hnp : ¬(pairsOf cs ≠ [] ∨ 1 < (tripsOf cs).length) := fun hor => h4 ⟨h8, hor⟩
    push_neg at hnp
    obtain ⟨hP, hT⟩ := hnp
    have hq0 : (quadsOf cs).length = 0 := by rw [not_not.mp h3]; rfl
    have hp0 : (pairsOf cs).length = 0 := by rw [hP]; rfl
    have hh : (highCardsOf cs).length = 4 := by omega
    show ((tripsOf cs).headD 0 :: (highCardsOf cs).take 2).length = 3
    simp [List.length_take, hh]
  · have hq0 : (quadsOf cs).length = 0 := by rw [not_not.mp h3]; rfl
    have ht0 : (tripsOf cs).length = 0 := by rw [not_not.mp h8]; rfl
    have hh : 1 ≤ (highCardsOf cs).length := by omega
    show ((pairsOf cs).headD 0 :: (pairsOf cs).getD 1 0 :: (highCardsOf cs).take 1).length = 3
    simp [List.length_take]
    omega
  · have hq0 : (quadsOf cs).length = 0 := by rw [not_not.mp h3]; rfl
    have ht0 : (tripsOf cs).length = 0 := by rw [not_not.mp h8]; rfl
    have hh : (highCardsOf cs).length = 5 := by omega
    show ((pairsOf cs).headD 0 :: (highCardsOf cs).take 3).length = 4
    simp [List.length_take, hh]
  · have hq0 : (quadsOf cs).length = 0 := by rw [not_not.mp h3]; rfl
    have ht0 : (tripsOf cs).length = 0 := by rw [not_not.mp h8]; rfl
    have hp0 : (pairsOf cs).length = 0 := by omega
    have hh : (highCardsOf cs).length = 7 := by omega
    have hfeq : revRanks.filter (fun v => decide (0 < countValue cs v)) =
        revRanks.filter (fun v => decide (countValue cs v = 1)) := by
      apply List.filter_congr
      intro v hvm
      have hvr : v ∈ rankList := mem_rankList.mpr (mem_revRanks.mp hvm)
      have hle4 : countValue cs v ≤ 4 :=
        countValue_le_four cs hnd (fun c hc => (hv c hc).1) v
      have hne4 : countValue cs v ≠ 4 := by
        have := group_eq_nil.mp (not_not.mp h3)
        exact this v hvr
      have hne3 : countValue cs v ≠ 3 := by
        have := group_eq_nil.mp (not_not.mp h8)
        exact this v hvr
      have hne2 : countValue cs v ≠ 2 := by
        have hPnil : pairsOf cs = [] := List.length_eq_zero.mp hp0
        have := group_eq_nil.mp hPnil
        exact this v hvr
      apply decide_eq_decide.mpr
      omega
    have hflen : (revRanks.filter (fun v => decide (countValue cs v = 1))).length
        = (highCardsOf cs).length := by
      rw [revRanks_eq_reverse, List.filter_reverse, List.length_reverse, highCardsOf,
        List.length_reverse]
    show ((revRanks.filter (fun v => decide (0 < countValue cs v))).take 5).length = 5
    rw [hfeq]
    simp only [List.length_take, hflen, hh]
    rfl

/-- Witness for C10 on a two-pair hand. -/
theorem tiebreaker_length_by_category_witness :
    (evaluateComplete
        [⟨0, 14⟩, ⟨1, 14⟩, ⟨0, 13⟩, ⟨1, 13⟩, ⟨0, 12⟩, ⟨1, 9⟩, ⟨2, 2⟩]).tiebreakers ≠ [] ∧
    (evaluateComplete
        [⟨0, 14⟩, ⟨1, 14⟩, ⟨0, 13⟩, ⟨1, 13⟩, ⟨0, 12⟩, ⟨1, 9⟩, ⟨2, 2⟩]).tiebreakers.length =
      tbLen (evaluateComplete
        [⟨0, 14⟩, ⟨1, 14⟩, ⟨0, 13⟩, ⟨1, 13⟩, ⟨0, 12⟩, ⟨1, 9⟩, ⟨2, 2⟩]).rank :=
  tiebreaker_length_by_category
    [⟨0, 14⟩, ⟨1, 14⟩, ⟨0, 13⟩, ⟨1, 13⟩, ⟨0, 12⟩, ⟨1, 9⟩, ⟨2, 2⟩]
    (by decide) (by decide) (by decide)

/-! C5: the FULL_HOUSE branch. -/

/-- A count-class list (for a positive count) is nonempty iff some rank has
that count. -/
lemma group_ne_nil_iff {cs : List Card} (hv : ∀ c ∈ cs, ValidCard c)
    {k : Nat} (hk : 0 < k) :
    (rankList.filter (fun v => decide (countValue cs v = k))).reverse ≠ [] ↔
      ∃ v, countValue cs v = k := by
  constructor
  · intro h
    obtain ⟨v, hvm⟩ := List.exists_mem_of_ne_nil _ h
    exact ⟨v, (mem_group.mp hvm).2⟩
  · rintro ⟨v, hvk⟩ hnil
    have hvr : v ∈ rankList :=
      mem_rankList.mpr (range_of_countValue_pos cs hv v (by omega))
    exact (group_eq_nil.mp hnil) v hvr hvk

/-- tripsOf is nonempty iff some rank has count 3. -/
lemma tripsOf_ne_nil_iff (cs : List Card) (hv : ∀ c ∈ cs, ValidCard c) :
    tripsOf cs ≠ [] ↔ ∃ v, countValue cs v = 3 := by
  rw [tripsOf]
  exact group_ne_nil_iff hv (by omega)

/-- pairsOf is nonempty iff some rank has count 2. -/
lemma pairsOf_ne_nil_iff (cs : List Card) (hv : ∀ c ∈ cs, ValidCard c) :
    pairsOf cs ≠ [] ↔ ∃ v, countValue cs v = 2 := by
  rw [pairsOf]
  exact group_ne_nil_iff hv (by omega)

/-- tripsOf has two or more entries iff two distinct ranks have count 3. -/
lemma tripsOf_two_iff (cs : List Card) (hv : ∀ c ∈ cs, ValidCard c) :
    1 < (tripsOf cs).length ↔
      ∃ t u, t ≠ u ∧ countValue cs t = 3 ∧ countValue cs u = 3 := by
  constructor
  · intro h
    rcases htl : tripsOf cs with _ | ⟨a, _ | ⟨b, rest⟩⟩
    · rw [htl] at h
      simp at h
    · rw [htl] at h
      simp at h
    · have hs := group_sorted cs 3
      rw [show (rankList.filter (fun v => decide (countValue cs v = 3))).reverse
            = tripsOf cs from rfl, htl] at hs
      have hab : b < a := (List.pairwise_cons.mp hs).1 b (by simp)
      have ham : a ∈ tripsOf cs := by rw [htl]; simp
      have hbm : b ∈ tripsOf cs := by rw [htl]; simp
      rw [tripsOf] at ham hbm
      exact ⟨a, b, by omega, (mem_group.mp ham).2, (mem_group.mp hbm).2⟩
  · rintro ⟨t, u, htu, ht3, hu3⟩
    have htm : t ∈ tripsOf cs := by
      rw [tripsOf]
      exact mem_group.mpr
        ⟨mem_rankList.mpr (range_of_countValue_pos cs hv t (by omega)), ht3⟩
    have hum : u ∈ tripsOf cs := by
      rw [tripsOf]
      exact mem_group.mpr
        ⟨mem_rankList.mpr (range_of_countValue_pos cs hv u (by omega)), hu3⟩
    have hsub : [t, u] ⊆ tripsOf cs := by
      intro x hx
      rcases List.mem_cons.mp hx with rfl | hx'
      · exact htm
      rcases List.mem_cons.mp hx' with rfl | hx''
      · exact hum
      · cases hx''
    have hnd2 : ([t, u] : List Nat).Nodup := by simp [htu]
    have := (List.subperm_of_subset hnd2 hsub).length_le
    simpa using this

/-- In a strictly descending list a :: b :: rest, b bounds every member
other than a. -/
lemma desc_second {a b : Nat} {rest : List Nat}
    (h : (a :: b :: rest).Pairwise (fun x y => y < x)) :
    b < a ∧ ∀ y ∈ a :: b :: rest, y ≠ a → y ≤ b := by
  obtain ⟨h1, h2⟩ := List.pairwise_cons.mp h
  obtain ⟨h3, _⟩ := List.pairwise_cons.mp h2
  refine ⟨h1 b (by simp), ?_⟩
  intro y hy hne
  rcases List.mem_cons.mp hy with rfl | hy'
  · exact absurd rfl hne
  rcases List.mem_cons.mp hy' with rfl | hy''
  · exact Nat.le_refl _
  · exact Nat.le_of_lt (h3 y hy'')

/-- C5: on a 7-card hand of distinct valid cards with no quad rank and no
straight flush, the category is FULL_HOUSE exactly when a trip exists
together with a pair or a second trip; the tiebreakers are then the highest
trip rank followed by the highest pair rank, or by the second trip rank when
no pair exists. -/
theorem fullHouse_characterization (cs : List Card) (hlen : cs.length = 7)
    (hnd : cs.Nodup) (hv : ∀ c ∈ cs, ValidCard c)
    (hq : ∀ v ∈ rankList, countValue cs v ≠ 4)
    (hsf : (straightFlushInfo cs).1 = false) :
    ((evaluateComplete cs).rank = .FULL_HOUSE ↔
      (∃ t, countValue cs t = 3) ∧
        ((∃ p, countValue cs p = 2) ∨
          ∃ t u, t ≠ u ∧ countValue cs t = 3 ∧ countValue cs u = 3)) ∧
    ((evaluateComplete cs).rank = .FULL_HOUSE →
      ∃ t s, (evaluateComplete cs).tiebreakers = [t, s] ∧
        countValue cs t = 3 ∧ (∀ v, countValue cs v = 3 → v ≤ t) ∧
        ((∃ p, countValue cs p = 2) →
          countValue cs s = 2 ∧ ∀ v, countValue cs v = 2 → v ≤ s) ∧
        ((∀ v, countValue cs v ≠ 2) →
          countValue cs s = 3 ∧ s ≠ t ∧
            ∀ v, countValue cs v = 3 → v ≠ t → v ≤ s)) := by
  have hqnil : quadsOf cs = [] := by
    rw [quadsOf]
    exact group_eq_nil.mpr hq
  have hsf1 : ¬((straightFlushInfo cs).1 = true ∧ (straightFlushInfo cs).2 = 14) := by
    rintro ⟨h, _⟩
    rw [hsf] at h
    cases h
  have hsf2 : ¬(straightFlushInfo cs).1 = true := by
    rw [hsf]
    simp
  have hq3 : ¬(quadsOf cs ≠ []) := by
    rw [hqnil]
    simp
  have hguard_iff : (tripsOf cs ≠ [] ∧ (pairsOf cs ≠ [] ∨ 1 < (tripsOf cs).length)) ↔
      ((∃ t, countValue cs t = 3) ∧
        ((∃ p, countValue cs p = 2) ∨
          ∃ t u, t ≠ u ∧ countValue cs t = 3 ∧ countValue cs u = 3)) := by
    rw [tripsOf_ne_nil_iff cs hv, pairsOf_ne_nil_iff cs hv, tripsOf_two_iff cs hv]
  by_cases hg : tripsOf cs ≠ [] ∧ (pairsOf cs ≠ [] ∨ 1 < (tripsOf cs).length)
  · have heval : evaluateComplete cs = ⟨.FULL_HOUSE, [(tripsOf cs).headD 0,
        if pairsOf cs ≠ [] then (pairsOf cs).headD 0 else (tripsOf cs).getD 1 0]⟩ := by
      rw [evaluateComplete, if_neg hsf1, if_neg hsf2, if_neg hq3, if_pos hg]
    have hT := hg.1
    have htmem : (tripsOf cs).headD 0 ∈ tripsOf cs := headD_mem hT
    have ht3 : countValue cs ((tripsOf cs).headD 0) = 3 := by
      rw [tripsOf] at htmem
      exact (mem_group.mp htmem).2
    have htmax : ∀ v, countValue cs v = 3 → v ≤ (tripsOf cs).headD 0 := by
      intro v hv3
      have hvm : v ∈ tripsOf cs := by
        rw [tripsOf]
        exact mem_group.mpr
          ⟨mem_rankList.mpr (range_of_countValue_pos cs hv v (by omega)), hv3⟩
      exact headD_max (by rw [tripsOf]; exact group_sorted cs 3) v hvm
    refine ⟨iff_of_true (by rw [heval]) (hguard_iff.mp hg), ?_⟩
    intro _
    by_cases hP : pairsOf cs ≠ []
    · have hpmem : (pairsOf cs).headD 0 ∈ pairsOf cs := headD_mem hP
      have hp2 : countValue cs ((pairsOf cs).headD 0) = 2 := by
        rw [pairsOf] at hpmem
        exact (mem_group.mp hpmem).2
      refine ⟨(tripsOf cs).headD 0, (pairsOf cs).headD 0, ?_, ht3, htmax, ?_, ?_⟩
      · rw [heval, if_pos hP]
      · intro _
        refine ⟨hp2, ?_⟩
        intro v hv2
        have hvm : v ∈ pairsOf cs := by
          rw [pairsOf]
          exact mem_group.mpr
            ⟨mem_rankList.mpr (range_of_countValue_pos cs hv v (by omega)), hv2⟩
        exact headD_max (by rw [pairsOf]; exact group_sorted cs 2) v hvm
      · intro hno2
        exact absurd hp2 (hno2 _)
    · have hT2 : 1 < (tripsOf cs).length := by
        rcases hg.2 with h | h
        · exact absurd h hP
        · exact h
      rcases htl : tripsOf cs with _ | ⟨a, _ | ⟨b, rest⟩⟩
      · rw [htl] at hT2
        simp at hT2
      · rw [htl] at hT2
        simp at hT2
      · have hs := group_sorted cs 3
        rw [show (rankList.filter (fun v => decide (countValue cs v = 3))).reverse
              = tripsOf cs from rfl, htl] at hs
        obtain ⟨hba, hbnd⟩ := desc_second hs
        have hbm : b ∈ tripsOf cs := by
          rw [htl]
          simp
        have hb3 : countValue cs b = 3 := by
          rw [tripsOf] at hbm
          exact (mem_group.mp hbm).2
        refine ⟨(tripsOf cs).headD 0, (tripsOf cs).getD 1 0, ?_, ht3, htmax, ?_, ?_⟩
        · rw [heval, if_neg hP]
        · rintro ⟨p, hp2⟩
          exact absurd ((pairsOf_ne_nil_iff cs hv).mpr ⟨p, hp2⟩) hP
        · intro _
          have hhead : (tripsOf cs).headD 0 = a := by rw [htl]; rfl
          have hgd : (tripsOf cs).getD 1 0 = b := by rw [htl]; rfl
          rw [hhead, hgd]
          refine ⟨hb3, by omega, ?_⟩
          intro v hv3 hva
          have hvm : v ∈ tripsOf cs := by
            rw [tripsOf]
            exact mem_group.mpr
              ⟨mem_rankList.mpr (range_of_countValue_pos cs hv v (by omega)), hv3⟩
          rw [htl] at hvm
          exact hbnd v hvm hva
  · have hrank : (evaluateComplete cs).rank ≠ .FULL_HOUSE := by
      rw [evaluateComplete, if_neg hsf1, if_neg hsf2, if_neg hq3, if_neg hg]
      split_ifs <;> simp
    refine ⟨iff_of_false hrank (fun hr => hg (hguard_iff.mpr hr)), ?_⟩
    intro hr
    exact absurd hr hrank

/-- Witness for C5 on the double-trips hand KKK QQQ 2 (no separate pair). -/
theorem fullHouse_characterization_witness :
    (evaluateComplete
        [⟨0, 13⟩, ⟨1, 13⟩, ⟨2, 13⟩, ⟨0, 12⟩, ⟨1, 12⟩, ⟨2, 12⟩, ⟨0, 2⟩]).rank
      = .FULL_HOUSE ↔
      (∃ t, countValue
          [⟨0, 13⟩, ⟨1, 13⟩, ⟨2, 13⟩, ⟨0, 12⟩, ⟨1, 12⟩, ⟨2, 12⟩, ⟨0, 2⟩] t = 3) ∧
        ((∃ p, countValue
            [⟨0, 13⟩, ⟨1, 13⟩, ⟨2, 13⟩, ⟨0, 12⟩, ⟨1, 12⟩, ⟨2, 12⟩, ⟨0, 2⟩] p = 2) ∨
          ∃ t u, t ≠ u ∧ countValue
              [⟨0, 13⟩, ⟨1, 13⟩, ⟨2, 13⟩, ⟨0, 12⟩, ⟨1, 12⟩, ⟨2, 12⟩, ⟨0, 2⟩] t = 3 ∧
            countValue
              [⟨0, 13⟩, ⟨1, 13⟩, ⟨2, 13⟩, ⟨0, 12⟩, ⟨1, 12⟩, ⟨2, 12⟩, ⟨0, 2⟩] u = 3) :=
  (fullHouse_characterization
    [⟨0, 13⟩, ⟨1, 13⟩, ⟨2, 13⟩, ⟨0, 12⟩, ⟨1, 12⟩, ⟨2, 12⟩, ⟨0, 2⟩]
    (by decide) (by decide) (by decide) (by decide) (by decide)).1

/-! C4: per-trial card distinctness. -/

/-- toInt is injective on valid cards. -/
lemma toInt_inj_valid {a b : Card} (ha : ValidCard a) (hb : ValidCard b)
    (h : a.toInt = b.toInt) : a = b := by
  obtain ⟨s1, v1⟩ := a
  obtain ⟨s2, v2⟩ := b
  obtain ⟨hs1, hv1, hv1'⟩ := ha
  obtain ⟨hs2, hv2, hv2'⟩ := hb
  simp only [Card.toInt] at h hs1 hs2 hv1 hv1' hv2 hv2'
  simp only [Card.mk.injEq]
  omega

/-- removeCard yields a sublist. -/
lemma removeCard_sublist (cs : List Card) (c : Card) :
    (removeCard cs c).Sublist cs := by
  induction cs with
  | nil => exact List.Sublist.refl []
  | cons x xs ih =>
    rw [removeCard]
    by_cases h : x.toInt = c.toInt
    · rw [if_pos h]
      exact List.sublist_cons_self x xs
    · rw [if_neg h]
      exact ih.cons₂ x

/-- removeCard keeps every member whose toInt differs. -/
lemma mem_removeCard_of_ne {cs : List Card} {x c : Card} (hx : x ∈ cs)
    (hne : x.toInt ≠ c.toInt) : x ∈ removeCard cs c := by
  induction cs with
  | nil => cases hx
  | cons y ys ih =>
    rw [removeCard]
    by_cases h : y.toInt = c.toInt
    · rw [if_pos h]
      rcases List.mem_cons.mp hx with rfl | hx'
      · exact absurd h hne
      · exact hx'
    · rw [if_neg h]
      rcases List.mem_cons.mp hx with rfl | hx'
      · exact List.mem_cons_self x (removeCard ys c)
      · exact List.mem_cons_of_mem y (ih hx')

/-- removeCard of a present card drops the length by one. -/
lemma length_removeCard_of_mem {cs : List Card} {c : Card} (hc : c ∈ cs) :
    (removeCard cs c).length + 1 = cs.length := by
  induction cs with
  | nil => cases hc
  | cons y ys ih =>
    rw [removeCard]
    by_cases h : y.toInt = c.toInt
    · rw [if_pos h]
      rfl
    · rw [if_neg h]
      rcases List.mem_cons.mp hc with rfl | hc'
      · exact absurd rfl h
      · simp only [List.length_cons]
        rw [ih hc']

/-- After removing a valid card from a duplicate-free list of valid cards,
the card is gone. -/
lemma not_mem_removeCard {cs : List Card} {c : Card} (hnd : cs.Nodup)
    (hval : ∀ x ∈ cs, ValidCard x) (hc : ValidCard c) :
    c ∉ removeCard cs c := by
  induction cs with
  | nil => simp [removeCard]
  | cons y ys ih =>
    obtain ⟨hy, hys⟩ := List.nodup_cons.mp hnd
    rw [removeCard]
    by_cases h : y.toInt = c.toInt
    · rw [if_pos h]
      have : y = c := toInt_inj_valid (hval y (List.mem_cons_self y ys)) hc h
      rw [← this]
      exact hy
    · rw [if_neg h]
      intro hmem
      rcases List.mem_cons.mp hmem with rfl | hmem'
      · exact h rfl
      · exact ih hys (fun x hx => hval x (List.mem_cons_of_mem y hx)) hmem'

/-- Removing a list of distinct, valid, present cards from a duplicate-free
pool of valid cards yields a sublist of the expected length avoiding each
removed card. -/
lemma removeList_spec : ∀ (ks d : List Card), d.Nodup →
    (∀ x ∈ d, ValidCard x) → ks.Nodup → (∀ k ∈ ks, ValidCard k) →
    (∀ k ∈ ks, k ∈ d) →
    (ks.foldl removeCard d).Sublist d ∧
      (ks.foldl removeCard d).length + ks.length = d.length ∧
      ∀ k ∈ ks, k ∉ ks.foldl removeCard d := by
  intro ks
  induction ks with
  | nil =>
    intro d _ _ _ _ _
    exact ⟨List.Sublist.refl d, by simp, by simp⟩
  | cons k ks ih =>
    intro d hd hdval hks hksval hksd
    obtain ⟨hk, hks'⟩ := List.nodup_cons.mp hks
    have hkval : ValidCard k := hksval k (List.mem_cons_self k ks)
    have hkd : k ∈ d := hksd k (List.mem_cons_self k ks)
    have hsub1 : (removeCard d k).Sublist d := removeCard_sublist d k
    have hnd1 : (removeCard d k).Nodup := hsub1.nodup hd
    have hval1 : ∀ x ∈ removeCard d k, ValidCard x :=
      fun x hx => hdval x (hsub1.subset hx)
    have hmem1 : ∀ k' ∈ ks, k' ∈ removeCard d k := by
      intro k' hk'
      have hne : k'.toInt ≠ k.toInt := by
        intro he
        have : k' = k :=
          toInt_inj_valid (hksval k' (List.mem_cons_of_mem k hk')) hkval he
        exact hk (this ▸ hk')
      exact mem_removeCard_of_ne (hksd k' (List.mem_cons_of_mem k hk')) hne
    obtain ⟨ihsub, ihlen, ihnot⟩ := ih (removeCard d k) hnd1 hval1 hks'
      (fun x hx => hksval x (List.mem_cons_of_mem k hx)) hmem1
    have hlen1 : (removeCard d k).length + 1 = d.length :=
      length_removeCard_of_mem hkd
    have hfold : (k :: ks).foldl removeCard d = ks.foldl removeCard (removeCard d k) := rfl
    refine ⟨?_, ?_, ?_⟩
    · rw [hfold]
      exact ihsub.trans hsub1
    · rw [hfold]
      simp only [List.length_cons]
      omega
    · intro k' hk'
      rw [hfold]
      rcases List.mem_cons.mp hk' with rfl | hk''
      · intro hmem
        exact not_mem_removeCard hd hdval hkval (ihsub.subset hmem)
      · exact ihnot k' hk''

/-- deal pops the back card. -/
lemma deal_concat (l : List Card) (c : Card) : deal (l ++ [c]) = some (c, l) := by
  rw [deal, List.getLast?_concat, List.dropLast_concat]

/-- dealN on a deck with back card c deals c first. -/
lemma dealN_concat (n : Nat) (l : List Card) (c : Card) :
    dealN (n + 1) (l ++ [c]) =
      match dealN n l with
      | none => none
      | some (cs, d2) => some (c :: cs, d2) := by
  rw [dealN, deal_concat]

/-- Dealing n cards from a deck of at least n cards succeeds, deals exactly
n cards, and partitions the deck. -/
lemma dealN_spec : ∀ (n : Nat) (d : List Card), n ≤ d.length →
    ∃ out rest, dealN n d = some (out, rest) ∧ out.length = n ∧
      (out ++ rest).Perm d := by
  intro n
  induction n with
  | zero =>
    intro d _
    exact ⟨[], d, rfl, rfl, List.Perm.refl d⟩
  | succ n ih =>
    intro d hn
    have hne : d ≠ [] := by
      intro h
      rw [h] at hn
      simp at hn
    obtain ⟨l, c, rfl⟩ : ∃ l c, d = l ++ [c] :=
      ⟨d.dropLast, d.getLast hne, (List.dropLast_append_getLast hne).symm⟩
    have hl : n ≤ l.length := by
      have hlen : (l ++ [c]).length = l.length + 1 := by simp
      omega
    obtain ⟨out, rest, hdn, hout, hperm⟩ := ih l hl
    refine ⟨c :: out, rest, ?_, by simp [hout], ?_⟩
    · rw [dealN_concat, hdn]
    · have h1 : (c :: (out ++ rest)).Perm (c :: l) := hperm.cons c
      have h2 : (c :: l).Perm (l ++ [c]) := (List.perm_append_singleton c l).symm
      exact h1.trans h2

/-- C4: a simulation trial built from 2 distinct valid bot hole cards and
0/3/4/5 distinct valid known community cards (all pairwise distinct), with
the deck reset, knowns removed and the rest arbitrarily shuffled, succeeds
and uses exactly 9 pairwise-distinct cards from the canonical 52-card deck:
the bot's 2 hole cards, the opponent's 2 drawn hole cards, and the 5
completed community cards. -/
theorem trial_cards_distinct (bot comm shuffled : List Card)
    (hb : bot.length = 2)
    (hc : comm.length = 0 ∨ comm.length = 3 ∨ comm.length = 4 ∨ comm.length = 5)
    (hval : ∀ c ∈ bot ++ comm, ValidCard c) (hnd : (bot ++ comm).Nodup)
    (hs : shuffled.Perm (removeKnown (bot ++ comm))) :
    ∃ used, simTrialCards bot comm shuffled = some used ∧ used.length = 9 ∧
      used.Nodup ∧ ∀ c ∈ used, c ∈ freshDeck := by
  have hfresh_nd : freshDeck.Nodup := by decide
  have hfresh_val : ∀ x ∈ freshDeck, ValidCard x := by decide
  have hfresh_len : freshDeck.length = 52 := by decide
  have hmem_fresh : ∀ c : Card, ValidCard c → c ∈ freshDeck := by
    intro c hc
    obtain ⟨h1, h2, h3⟩ := hc
    rw [freshDeck, List.mem_flatMap]
    refine ⟨c.suit, ?_, ?_⟩
    · simp only [List.mem_cons, List.not_mem_nil, or_false]
      omega
    · rw [List.mem_map]
      exact ⟨c.value, mem_rankList.mpr ⟨h2, h3⟩, rfl⟩
  have hkd : ∀ k ∈ bot ++ comm, k ∈ freshDeck := fun k hk => hmem_fresh k (hval k hk)
  obtain ⟨hDsub, hDlen, hDnot⟩ :=
    removeList_spec (bot ++ comm) freshDeck hfresh_nd hfresh_val hnd hval hkd
  have hKlen : (bot ++ comm).length = bot.length + comm.length := by simp
  have hDnd : (removeKnown (bot ++ comm)).Nodup := hDsub.nodup hfresh_nd
  have hslen : shuffled.length = (removeKnown (bot ++ comm)).length := hs.length_eq
  have hsnd : shuffled.Nodup := (hs.nodup_iff).mpr hDnd
  have hslb : 7 ≤ shuffled.length := by
    rw [hslen, removeKnown]
    omega
  obtain ⟨opp, d1, hdn1, hopp, hperm1⟩ := dealN_spec 2 shuffled (by omega)
  have hd1len : opp.length + d1.length = shuffled.length := by
    have := hperm1.length_eq
    simpa using this
  obtain ⟨extra, d2, hdn2, hextra, hperm2⟩ := dealN_spec (5 - comm.length) d1
    (by omega)
  refine ⟨bot ++ opp ++ (comm ++ extra), ?_, ?_, ?_, ?_⟩
  · simp only [simTrialCards, hdn1, hdn2]
  · simp only [List.length_append, hb, hopp, hextra]
    omega
  · have hdrawn_nd : (opp ++ (extra ++ d2)).Nodup := by
      have h1 : (opp ++ d1).Nodup := (hperm1.nodup_iff).mpr hsnd
      have h2 : (opp ++ (extra ++ d2)).Perm (opp ++ d1) :=
        List.Perm.append_left opp hperm2
      exact (h2.nodup_iff).mpr h1
    have hoe_nd : (opp ++ extra).Nodup := by
      have : (opp ++ extra).Sublist (opp ++ (extra ++ d2)) :=
        List.Sublist.append_left (List.sublist_append_left extra d2) opp
      exact this.nodup hdrawn_nd
    have hdrawn_sub : ∀ x ∈ opp ++ extra, x ∈ shuffled := by
      intro x hx
      rcases List.mem_append.mp hx with hx1 | hx2
      · exact hperm1.subset (List.mem_append.mpr (Or.inl hx1))
      · have hx3 : x ∈ extra ++ d2 := List.mem_append.mpr (Or.inl hx2)
        have hx4 : x ∈ d1 := hperm2.subset hx3
        exact hperm1.subset (List.mem_append.mpr (Or.inr hx4))
    have hdrawn_not_known : ∀ x ∈ opp ++ extra, x ∉ bot ++ comm := by
      intro x hx hk
      have hxD : x ∈ removeKnown (bot ++ comm) := hs.subset (hdrawn_sub x hx)
      exact hDnot x hk hxD
    have p2 : (opp ++ (comm ++ extra)).Perm (comm ++ (opp ++ extra)) := by
      have q1 : (opp ++ (comm ++ extra)).Perm (opp ++ (extra ++ comm)) :=
        List.Perm.append_left opp List.perm_append_comm
      have q2 : opp ++ (extra ++ comm) = (opp ++ extra) ++ comm :=
        (List.append_assoc opp extra comm).symm
      have q3 : ((opp ++ extra) ++ comm).Perm (comm ++ (opp ++ extra)) :=
        List.perm_append_comm
      rw [q2] at q1
      exact q1.trans q3
    have hrearr : (bot ++ opp ++ (comm ++ extra)).Perm
        ((bot ++ comm) ++ (opp ++ extra)) := by
      have e1 : bot ++ opp ++ (comm ++ extra) = bot ++ (opp ++ (comm ++ extra)) :=
        List.append_assoc bot opp (comm ++ extra)
      have e2 : bot ++ (comm ++ (opp ++ extra)) = (bot ++ comm) ++ (opp ++ extra) :=
        (List.append_assoc bot comm (opp ++ extra)).symm
      rw [e1, ← e2]
      exact List.Perm.append_left bot p2
    rw [hrearr.nodup_iff]
    rw [List.nodup_append]
    refine ⟨hnd, hoe_nd, ?_⟩
    intro x hx1 hx2
    exact hdrawn_not_known x hx2 hx1
  · intro x hx
    simp only [List.mem_append] at hx
    rcases hx with (hx | hx) | (hx | hx)
    · exact hkd x (List.mem_append.mpr (Or.inl hx))
    · have : x ∈ shuffled :=
        hperm1.subset (List.mem_append.mpr (Or.inl hx))
      exact hDsub.subset (hs.subset this)
    · exact hkd x (List.mem_append.mpr (Or.inr hx))
    · have hx3 : x ∈ d1 := hperm2.subset (List.mem_append.mpr (Or.inl hx))
      have : x ∈ shuffled := hperm1.subset (List.mem_append.mpr (Or.inr hx3))
      exact hDsub.subset (hs.subset this)

/-- Witness for C4: pre-flop trial with hole cards 2C 3C, no community cards,
and the identity shuffle. -/
theorem trial_cards_distinct_witness :
    ∃ used, simTrialCards [⟨0, 2⟩, ⟨0, 3⟩] []
        (removeKnown ([⟨0, 2⟩, ⟨0, 3⟩] ++ [])) = some used ∧
      used.length = 9 ∧ used.Nodup ∧ ∀ c ∈ used, c ∈ freshDeck :=
  trial_cards_distinct [⟨0, 2⟩, ⟨0, 3⟩] [] (removeKnown ([⟨0, 2⟩, ⟨0, 3⟩] ++ []))
    rfl (Or.inl rfl) (by decide) (by decide) (List.Perm.refl _)

end PokerBot
